import Mathlib

/-!
Verification development for the sheet-music scanning backend
(src/scan-backend.py). The Python module is shallowly embedded: pure
helper functions become Lean functions on strings (modelled as lists of
characters), and the Flask request handler becomes a function from an
explicit request plus an environment of external effects (uuid entropy,
filesystem exceptions, engine subprocess outcome) to a response outcome
together with a trace of the side-effecting steps it performed, in order.
-/

namespace OmrScan

/-! ### Module-level configuration constants (lines 12-16 of the source) -/

def AUDIVERIS_PATH : String := "C:/Program Files/Audiveris/bin/Audiveris.bat"

def UPLOAD_FOLDER : String := "uploads"

def OUTPUT_FOLDER : String := "output"

def ALLOWED_EXTENSIONS : List String := ["pdf", "png", "jpg", "jpeg"]

/-! ### Generic string helpers used by the embedding -/

/-- Python str.lower, restricted to the ASCII case mapping that is the
only one relevant to membership in the ASCII allow-list. -/
def lowerStr (s : String) : String := ⟨s.data.map Char.toLower⟩

/-- Python str.startswith. -/
def strStartsWith (s pre : String) : Bool :=
  decide (s.data.take pre.data.length = pre.data)

/-- The characters after the last occurrence of a dot
(Python filename.rsplit with separator dot and maxsplit one, index 1). -/
def afterLastDot : List Char → List Char
  | [] => []
  | c :: cs =>
    if cs.contains '.' then afterLastDot cs
    else if c = '.' then cs else afterLastDot cs

/-- Index of the last occurrence of a character (Python str.rfind,
with none for absent). -/
def lastIndexOf (c : Char) : List Char → Option Nat
  | [] => none
  | x :: xs =>
    match lastIndexOf c xs with
    | some i => some (i + 1)
    | none => if x = c then some 0 else none

/-! ### allowed_file (source lines 25-27) -/

/-- The validator: a dot must be present and the substring after the
last dot, lowercased, must be in the allow-list. -/
def allowed_file (filename : String) : Bool :=
  filename.data.contains '.' &&
    ALLOWED_EXTENSIONS.contains (lowerStr ⟨afterLastDot filename.data⟩)

/-! ### os.path.splitext (used at source line 90)

POSIX semantics: split at the last dot of the final path component,
unless every character of the component before that dot is itself a dot
(so a leading-dot name such as a bare dotfile is not split). -/

def splitext (p : String) : String × String :=
  match lastIndexOf '.' p.data with
  | none => (p, "")
  | some di =>
    match lastIndexOf '/' p.data with
    | none =>
      if (p.data.take di).all (fun c => c = '.') then (p, "")
      else (⟨p.data.take di⟩, ⟨p.data.drop di⟩)
    | some i =>
      if di < i + 1 then (p, "")
      else if ((p.data.drop (i + 1)).take (di - (i + 1))).all (fun c => c = '.') then (p, "")
      else (⟨p.data.take di⟩, ⟨p.data.drop di⟩)

/-! ### uuid.uuid4 and its string form (source line 50)

uuid4 draws sixteen random bytes (here: a natural number below 2 pow 128,
the big-endian integer value of those bytes), forces the version nibble
to 4 and the variant bits to 10, and renders as 32 lowercase hex digits
in 8-4-4-4-12 groups separated by dashes. -/

def MASK128 : Nat := 2 ^ 128 - 1

def uuid4Int (e : Nat) : Nat :=
  let n0 := e % 2 ^ 128
  let n1 := (n0 &&& (MASK128 ^^^ (0xf000 <<< 64))) ||| (0x4000 <<< 64)
  (n1 &&& (MASK128 ^^^ (0xc000 <<< 48))) ||| (0x8000 <<< 48)

def toHexChar (n : Nat) : Char :=
  if n < 10 then Char.ofNat (48 + n) else Char.ofNat (87 + n)

/-- Big-endian fixed-width hex digit list of a natural number. -/
def hexDigits : Nat → Nat → List Char
  | 0, _ => []
  | k + 1, n => hexDigits k (n / 16) ++ [toHexChar (n % 16)]

/-- str of a UUID value: 8-4-4-4-12 lowercase hex groups. -/
def uuidStrOf (n : Nat) : String :=
  ⟨(hexDigits 32 n).take 8 ++ '-' :: (((hexDigits 32 n).drop 8).take 4 ++
    '-' :: (((hexDigits 32 n).drop 12).take 4 ++
    '-' :: (((hexDigits 32 n).drop 16).take 4 ++ '-' :: (hexDigits 32 n).drop 20)))⟩

/-- str(uuid.uuid4()) as a function of the random draw. -/
def uuid4Str (e : Nat) : String := uuidStrOf (uuid4Int e)

/-! ### os.path.join (POSIX form, two arguments; source lines 52 and 55) -/

def posixJoin (a b : String) : String :=
  if strStartsWith b "/" then b
  else if a = "" ∨ a.data.getLast? = some '/' then a ++ b
  else a ++ "/" ++ b

/-! ### The request handler (source lines 35-112)

The handler is embedded as a function of the parsed request and an
environment of everything external: the uuid entropy drawn for this
request, whether os.makedirs and file.save raise, and the outcome of the
engine subprocess (exit code with captured streams, or an exception from
spawning it). It returns the HTTP outcome together with the ordered
trace of side-effecting steps it performed. -/

structure Upload where
  filename : String
  content : List Nat
deriving DecidableEq

structure Request where
  fileField : Option Upload
deriving DecidableEq

inductive EngineOutcome where
  | run (exitCode : Nat) (stdout stderr : String)
  | exc (msg : String)
deriving DecidableEq

structure Env where
  uuidEntropy : Nat
  mkdirExc : Option String
  saveExc : Option String
  engine : EngineOutcome
deriving DecidableEq

inductive Event where
  | genJobId (jobId : String)
  | mkdir (dir : String)
  | save (path : String)
  | runEngine (command : List String)
deriving DecidableEq

inductive Outcome where
  | response (status : Nat) (body : List (String × String))
  | uncaught (msg : String)
deriving DecidableEq

def process_sheet_music (req : Request) (env : Env) : Outcome × List Event :=
  match req.fileField with
  | none => (.response 400 [("error", "No file part in the request")], [])
  | some file =>
    if file.filename = "" then
      (.response 400 [("error", "No file selected")], [])
    else if allowed_file file.filename then
      let job_id := uuid4Str env.uuidEntropy
      let input_filename := file.filename
      let input_path := posixJoin UPLOAD_FOLDER input_filename
      let output_dir := posixJoin OUTPUT_FOLDER job_id
      match env.mkdirExc with
      | some m => (.uncaught m, [.genJobId job_id, .mkdir output_dir])
      | none =>
        match env.saveExc with
        | some m =>
          (.uncaught m, [.genJobId job_id, .mkdir output_dir, .save input_path])
        | none =>
          let command := [AUDIVERIS_PATH, "-batch", "-run", input_path,
            "-export", "-output", output_dir]
          let events := [Event.genJobId job_id, Event.mkdir output_dir,
            Event.save input_path, Event.runEngine command]
          match env.engine with
          | .run 0 _stdout _stderr =>
            let base_name := (splitext input_filename).1
            (.response 200 [
              ("xml", "/results/" ++ job_id ++ "/" ++ base_name ++ ".mxl"),
              ("midi", "/results/" ++ job_id ++ "/" ++ base_name ++ ".mid"),
              ("musescore", "/results/" ++ job_id ++ "/" ++ base_name ++ ".mscz")],
              events)
          | .run (_ + 1) _stdout stderr =>
            (.response 500 [("error", "Failed to process the sheet music with Audiveris."),
              ("details", stderr)], events)
          | .exc m =>
            (.response 500 [("error", "An unexpected error occurred: " ++ m)], events)
    else
      (.response 400 [("error", "File type not allowed")], [])

/-! ### posixpath.normpath and werkzeug safe_join (source lines 114-117)

The result-serving route delegates to flask send_from_directory, whose
path confinement is werkzeug safe_join: normalize the requested relative
path with posixpath.normpath, refuse it when it is absolute, equals the
parent marker, or still begins with a parent marker, and otherwise join
it under the configured root. Embedded here on POSIX semantics; the
existence check and actual streaming of the file are not modelled, only
which filesystem path would be served. -/

/-- Python str.split on the slash separator. -/
def splitSlash : List Char → List (List Char)
  | [] => [[]]
  | c :: cs =>
    if c = '/' then [] :: splitSlash cs
    else
      match splitSlash cs with
      | h :: t => (c :: h) :: t
      | [] => [[c]]

/-- Join components with slashes (inverse of splitSlash). -/
def joinSlash : List (List Char) → List Char
  | [] => []
  | x :: xs =>
    match xs with
    | [] => x
    | _ :: _ => x ++ '/' :: joinSlash xs

def DOTDOT : List Char := ['.', '.']

/-- The component loop of posixpath.normpath: skip empty and single-dot
components, let a parent marker pop a previous real component, keep
parent markers that cannot pop (only when the path is relative), and
drop them at the root of an absolute path. -/
def normComps (ab : Bool) : List (List Char) → List (List Char) → List (List Char)
  | [], stack => stack.reverse
  | comp :: rest, [] =>
    if comp = [] ∨ comp = ['.'] then normComps ab rest []
    else if comp = DOTDOT then
      (if ab then normComps ab rest [] else normComps ab rest [DOTDOT])
    else normComps ab rest [comp]
  | comp :: rest, top :: s =>
    if comp = [] ∨ comp = ['.'] then normComps ab rest (top :: s)
    else if comp = DOTDOT then
      (if top = DOTDOT then normComps ab rest (DOTDOT :: top :: s)
       else normComps ab rest s)
    else normComps ab rest (comp :: top :: s)

/-- The leading-slash count kept by posixpath.normpath: two when the
path starts with exactly two slashes, else one when absolute, else
zero. -/
def normSlashes (l : List Char) : Nat :=
  if l.take 2 = ['/', '/'] ∧ l.take 3 ≠ ['/', '/', '/'] then 2
  else if l.take 1 = ['/'] then 1 else 0

/-- Rendering of the normalized components behind the kept slashes; an
empty result renders as the current-directory dot. -/
def normRender (sl : Nat) (comps : List (List Char)) : String :=
  if (List.replicate sl '/' ++ joinSlash comps) = [] then "."
  else ⟨List.replicate sl '/' ++ joinSlash comps⟩

/-- posixpath.normpath. -/
def normpath (p : String) : String :=
  if p = "" then "." else
  normRender (normSlashes p.data)
    (normComps (decide (0 < normSlashes p.data)) (splitSlash p.data) [])

/-- The filename as werkzeug safe_join sees it: normalized when
nonempty. -/
def safeJoinF (filename : String) : String :=
  if filename = "" then filename else normpath filename

/-- werkzeug safe_join for one path component, POSIX platform. -/
def safeJoin (directory filename : String) : Option String :=
  if strStartsWith (safeJoinF filename) "/" ∨ safeJoinF filename = ".." ∨
      strStartsWith (safeJoinF filename) "../" then none
  else some (posixJoin (if directory = "" then "." else directory)
    (safeJoinF filename))

/-- The GET results route: which filesystem path send_from_directory
would serve for the requested path (none meaning the request is refused
as not found). -/
def send_result (path : String) : Option String :=
  safeJoin OUTPUT_FOLDER path

/-- A path stays under a root when its normalized form is the root
itself or extends the root by a separator. -/
def underRootB (root p : String) : Bool :=
  (normpath p = root) || strStartsWith (normpath p) (root ++ "/")

/-- Recognizer for the reject responses of the handler: client-error 400
whose body is exactly one error field. -/
def is400ErrorOnly : Outcome → Bool
  | .response 400 [(k, _)] => k == "error"
  | _ => false

def isRunEngineEvent : Event → Bool
  | .runEngine _ => true
  | _ => false

/-- A component with no separator characters. -/
def slashFree (x : List Char) : Prop := ∀ c ∈ x, c ≠ '/'

/-- A real path component: nonempty, not the current-directory dot, not
the parent marker. -/
def isNormal (x : List Char) : Prop := x ≠ [] ∧ x ≠ ['.'] ∧ x ≠ DOTDOT

/-- Inverse of a hex digit character, used to show the uuid rendering is
injective. -/
def fromHexChar (c : Char) : Nat :=
  if 87 ≤ c.toNat then c.toNat - 87 else c.toNat - 48

/-- Fold a hex digit list back into a number. -/
def ofHexAux : Nat → List Char → Nat
  | a, [] => a
  | a, c :: cs => ofHexAux (16 * a + fromHexChar c) cs

/-! ### Handler-level lemmas -/

/-- For a validated upload with directory creation and save succeeding,
the handler performs exactly: job-id generation, output directory
creation, upload save, one engine invocation — in that order. -/
lemma trace_shape (env : Env) (u : Upload)
    (hval : allowed_file u.filename = true) (hne : u.filename ≠ "")
    (hmk : env.mkdirExc = none) (hsv : env.saveExc = none) :
    (process_sheet_music ⟨some u⟩ env).2 =
      [Event.genJobId (uuid4Str env.uuidEntropy),
       Event.mkdir (posixJoin OUTPUT_FOLDER (uuid4Str env.uuidEntropy)),
       Event.save (posixJoin UPLOAD_FOLDER u.filename),
       Event.runEngine [AUDIVERIS_PATH, "-batch", "-run",
         posixJoin UPLOAD_FOLDER u.filename, "-export", "-output",
         posixJoin OUTPUT_FOLDER (uuid4Str env.uuidEntropy)]] := by
  obtain ⟨e, mk, sv, eng⟩ := env
  dsimp only at hmk hsv
  subst hmk hsv
  rcases eng with ⟨code, out, err⟩ | m
  · rcases code with _ | c <;> simp [process_sheet_music, hne, hval]
  · simp [process_sheet_music, hne, hval]

/-- In every branch that gets past validation, the first step of the
handler is generating the job identifier for this request. -/
lemma trace_head (env : Env) (u : Upload)
    (hval : allowed_file u.filename = true) (hne : u.filename ≠ "") :
    ∃ rest, (process_sheet_music ⟨some u⟩ env).2 =
      Event.genJobId (uuid4Str env.uuidEntropy) :: rest := by
  obtain ⟨e, mk, sv, eng⟩ := env
  rcases mk with _ | m1
  · rcases sv with _ | m2
    · rcases eng with ⟨code, out, err⟩ | m
      · rcases code with _ | c <;> simp [process_sheet_music, hne, hval]
      · simp [process_sheet_music, hne, hval]
    · simp [process_sheet_music, hne, hval]
  · simp [process_sheet_music, hne, hval]

/-- Splitting off the last dot: everything after it is returned. -/
lemma afterLastDot_append (a b : List Char) (hb : '.' ∉ b) :
    afterLastDot (a ++ '.' :: b) = b := by
  have hb' : b.contains '.' = false := by simp [hb]
  induction a with
  | nil =>
    simp only [List.nil_append]
    rw [afterLastDot, hb']
    simp
  | cons x a ih =>
    simp only [List.cons_append]
    rw [afterLastDot, show (a ++ '.' :: b).contains '.' = true from by simp]
    simpa using ih

/-- A list containing a dot splits at its last dot, and afterLastDot
returns the part after that dot. -/
lemma exists_split_of_mem_dot (l : List Char) (h : '.' ∈ l) :
    ∃ a b, l = a ++ '.' :: b ∧ '.' ∉ b ∧ afterLastDot l = b := by
  induction l with
  | nil => simp at h
  | cons x xs ih =>
    by_cases hxs : '.' ∈ xs
    · obtain ⟨a, b, hsplit, hb, hafter⟩ := ih hxs
      have hc : xs.contains '.' = true := by simpa using hxs
      refine ⟨x :: a, b, by simp [hsplit], hb, ?_⟩
      rw [afterLastDot, hc]
      simpa using hafter
    · have hx : x = '.' := by
        rcases List.mem_cons.mp h with hx | hx
        · exact hx.symm
        · exact absurd hx hxs
      have hc : xs.contains '.' = false := by simp [hxs]
      refine ⟨[], xs, by simp [hx], hxs, ?_⟩
      rw [afterLastDot, hc, hx]
      simp

lemma string_data_append (s t : String) : (s ++ t).data = s.data ++ t.data := by
  cases s
  cases t
  rfl

lemma lastIndexOf_eq_none (c : Char) (l : List Char) (h : c ∉ l) :
    lastIndexOf c l = none := by
  induction l with
  | nil => rfl
  | cons x xs ih =>
    have hx : x ≠ c := fun hh => h (hh ▸ List.mem_cons_self x xs)
    have hxs : c ∉ xs := fun hh => h (List.mem_cons_of_mem x hh)
    simp [lastIndexOf, ih hxs, hx]

/-- C2: the validator accepts exactly the filenames that decompose as
something, a dot, and a dot-free tail whose lowercase form is in the
allow-list; filenames without a dot are rejected, filenames ending in a
dot are rejected, and an allowed extension is accepted after any stem
and in any letter case. -/
theorem claim2 :
    (∀ f : String, allowed_file f = true ↔
      ∃ a b : List Char, f.data = a ++ '.' :: b ∧ '.' ∉ b ∧
        ALLOWED_EXTENSIONS.contains (lowerStr ⟨b⟩) = true) ∧
    (∀ f : String, '.' ∉ f.data → allowed_file f = false) ∧
    (∀ a : List Char, allowed_file ⟨a ++ ['.']⟩ = false) ∧
    (∀ a b : List Char, '.' ∉ b →
      ALLOWED_EXTENSIONS.contains (lowerStr ⟨b⟩) = true →
      allowed_file ⟨a ++ '.' :: b⟩ = true) := by
  have key : ∀ a b : List Char, '.' ∉ b →
      allowed_file ⟨a ++ '.' :: b⟩ = ALLOWED_EXTENSIONS.contains (lowerStr ⟨b⟩) := by
    intro a b hb
    show ((a ++ '.' :: b).contains '.' &&
      ALLOWED_EXTENSIONS.contains (lowerStr ⟨afterLastDot (a ++ '.' :: b)⟩)) =
      ALLOWED_EXTENSIONS.contains (lowerStr ⟨b⟩)
    rw [show (a ++ '.' :: b).contains '.' = true from by simp,
      afterLastDot_append a b hb]
    simp
  refine ⟨?_, ?_, ?_, ?_⟩
  · intro f
    constructor
    · intro h
      have hmem : '.' ∈ f.data := by
        have h1 := (Bool.and_eq_true _ _).mp h |>.1
        simpa using h1
      obtain ⟨a, b, hsplit, hb, hafter⟩ := exists_split_of_mem_dot f.data hmem
      refine ⟨a, b, hsplit, hb, ?_⟩
      have h2 := (Bool.and_eq_true _ _).mp h |>.2
      rwa [hafter] at h2
    · rintro ⟨a, b, hsplit, hb, hallowed⟩
      have hf : f = ⟨a ++ '.' :: b⟩ := congrArg String.mk hsplit
      rw [hf, key a b hb, hallowed]
  · intro f h
    have hc : f.data.contains '.' = false := by simp [h]
    show (f.data.contains '.' &&
      ALLOWED_EXTENSIONS.contains (lowerStr ⟨afterLastDot f.data⟩)) = false
    rw [hc]
    simp
  · intro a
    have : allowed_file ⟨a ++ '.' :: ([] : List Char)⟩ =
        ALLOWED_EXTENSIONS.contains (lowerStr ⟨[]⟩) := key a [] (by simp)
    simpa using this
  · intro a b hb hallowed
    rw [key a b hb, hallowed]

theorem claim2_w :
    ('.' ∉ "JPeG".data) ∧
    ALLOWED_EXTENSIONS.contains (lowerStr ⟨"JPeG".data⟩) = true ∧
    allowed_file ⟨"photo".data ++ '.' :: "JPeG".data⟩ = true :=
  ⟨by decide, by decide,
    claim2.2.2.2 "photo".data "JPeG".data (by decide) (by decide)⟩

/-- Shared success-path lemma: the 200 response body of the handler. -/
lemma success_response (env : Env) (u : Upload) (out err : String)
    (hval : allowed_file u.filename = true) (hne : u.filename ≠ "")
    (hmk : env.mkdirExc = none) (hsv : env.saveExc = none)
    (heng : env.engine = .run 0 out err) :
    (process_sheet_music ⟨some u⟩ env).1 =
      .response 200 [
        ("xml", "/results/" ++ uuid4Str env.uuidEntropy ++ "/" ++
          (splitext u.filename).1 ++ ".mxl"),
        ("midi", "/results/" ++ uuid4Str env.uuidEntropy ++ "/" ++
          (splitext u.filename).1 ++ ".mid"),
        ("musescore", "/results/" ++ uuid4Str env.uuidEntropy ++ "/" ++
          (splitext u.filename).1 ++ ".mscz")] := by
  obtain ⟨e, mk, sv, eng⟩ := env
  dsimp only at hmk hsv heng
  subst hmk hsv heng
  simp [process_sheet_music, hne, hval]

/-- C9: the path given to the save step is exactly the unsanitized join
of the intake directory with the client-supplied filename; and there is
a filename that passes validation whose joined path does not stay under
the intake directory. -/
theorem claim9 :
    (∀ (env : Env) (u : Upload), allowed_file u.filename = true →
      u.filename ≠ "" → env.mkdirExc = none → env.saveExc = none →
      ((process_sheet_music ⟨some u⟩ env).2).get? 2 =
        some (Event.save (posixJoin UPLOAD_FOLDER u.filename))) ∧
    allowed_file "../x.pdf" = true ∧
    underRootB UPLOAD_FOLDER (posixJoin UPLOAD_FOLDER "../x.pdf") = false := by
  refine ⟨?_, by decide, by decide⟩
  intro env u hval hne hmk hsv
  rw [trace_shape env u hval hne hmk hsv]
  rfl

theorem claim9_w :
    allowed_file "../x.pdf" = true ∧
    ((process_sheet_music ⟨some ⟨"../x.pdf", []⟩⟩ ⟨3, none, none, .run 0 "" ""⟩).2).get? 2 =
      some (Event.save (posixJoin UPLOAD_FOLDER "../x.pdf")) :=
  ⟨by decide,
    claim9.1 ⟨3, none, none, .run 0 "" ""⟩ ⟨"../x.pdf", []⟩
      (by decide) (by decide) rfl rfl⟩

/-- C10: for a filename that is a single leading dot followed by a
dot-free tail, the validator treats the tail as the extension while
splitext strips nothing, so on such an accepted filename the predicted
output paths embed the whole filename, of the form
/results/ job-id /.ext.mxl and so on. -/
theorem claim10 (s : String) (env : Env) (content : List Nat) (out err : String)
    (hs : '.' ∉ s.data) :
    allowed_file ("." ++ s) = ALLOWED_EXTENSIONS.contains (lowerStr s) ∧
    splitext ("." ++ s) = ("." ++ s, "") ∧
    (ALLOWED_EXTENSIONS.contains (lowerStr s) = true →
      env.mkdirExc = none → env.saveExc = none → env.engine = .run 0 out err →
      (process_sheet_music ⟨some ⟨"." ++ s, content⟩⟩ env).1 =
        .response 200 [
          ("xml", "/results/" ++ uuid4Str env.uuidEntropy ++ "/" ++
            ("." ++ s) ++ ".mxl"),
          ("midi", "/results/" ++ uuid4Str env.uuidEntropy ++ "/" ++
            ("." ++ s) ++ ".mid"),
          ("musescore", "/results/" ++ uuid4Str env.uuidEntropy ++ "/" ++
            ("." ++ s) ++ ".mscz")]) := by
  have hdata : ("." ++ s).data = '.' :: s.data := by
    rw [string_data_append]
    rfl
  have hval : allowed_file ("." ++ s) = ALLOWED_EXTENSIONS.contains (lowerStr s) := by
    have hafter : afterLastDot ('.' :: s.data) = s.data :=
      afterLastDot_append [] s.data hs
    show ((("." ++ s).data).contains '.' &&
      ALLOWED_EXTENSIONS.contains (lowerStr ⟨afterLastDot (("." ++ s).data)⟩)) =
      ALLOWED_EXTENSIONS.contains (lowerStr s)
    rw [hdata, hafter,
      show ('.' :: s.data).contains '.' = true from by simp,
      show (⟨s.data⟩ : String) = s from rfl]
    simp
  have hsplit : splitext ("." ++ s) = ("." ++ s, "") := by
    have hdot : lastIndexOf '.' (("." ++ s).data) = some 0 := by
      rw [hdata]
      simp [lastIndexOf, lastIndexOf_eq_none '.' s.data hs]
    unfold splitext
    rw [hdot]
    cases hsl : lastIndexOf '/' (("." ++ s).data) with
    | none => simp
    | some i => simp
  refine ⟨hval, hsplit, ?_⟩
  intro hallowed hmk hsv heng
  have hne : ("." ++ s) ≠ "" := by
    intro hh
    have := congrArg String.data hh
    rw [hdata] at this
    simp at this
  have := success_response env ⟨"." ++ s, content⟩ out err
    (by rw [hval, hallowed]) hne hmk hsv heng
  rw [this, congrArg Prod.fst hsplit]

theorem claim10_w :
    ('.' ∉ "pdf".data) ∧
    splitext ("." ++ "pdf") = ("." ++ "pdf", "") ∧
    allowed_file ("." ++ "pdf") = ALLOWED_EXTENSIONS.contains (lowerStr "pdf") ∧
    (process_sheet_music ⟨some ⟨"." ++ "pdf", []⟩⟩ ⟨5, none, none, .run 0 "" ""⟩).1 =
      .response 200 [
        ("xml", "/results/" ++ uuid4Str 5 ++ "/" ++ ("." ++ "pdf") ++ ".mxl"),
        ("midi", "/results/" ++ uuid4Str 5 ++ "/" ++ ("." ++ "pdf") ++ ".mid"),
        ("musescore", "/results/" ++ uuid4Str 5 ++ "/" ++ ("." ++ "pdf") ++ ".mscz")] := by
  have h := claim10 "pdf" ⟨5, none, none, .run 0 "" ""⟩ [] "" "" (by decide)
  exact ⟨by decide, h.2.1, h.1, h.2.2 (by decide) rfl rfl rfl⟩

/-- C1: for every upload whose filename passes validation, with directory
creation and save succeeding and the engine subprocess exiting zero, the
handler responds 200 and the body is exactly the three-key map of xml,
midi and musescore paths of the form /results/ job-id / base, where base
is the splitext base name of the uploaded filename and job-id the
identifier generated for this request. -/
theorem claim1 (env : Env) (u : Upload) (out err : String)
    (hval : allowed_file u.filename = true) (hne : u.filename ≠ "")
    (hmk : env.mkdirExc = none) (hsv : env.saveExc = none)
    (heng : env.engine = .run 0 out err) :
    (process_sheet_music ⟨some u⟩ env).1 =
      .response 200 [
        ("xml", "/results/" ++ uuid4Str env.uuidEntropy ++ "/" ++
          (splitext u.filename).1 ++ ".mxl"),
        ("midi", "/results/" ++ uuid4Str env.uuidEntropy ++ "/" ++
          (splitext u.filename).1 ++ ".mid"),
        ("musescore", "/results/" ++ uuid4Str env.uuidEntropy ++ "/" ++
          (splitext u.filename).1 ++ ".mscz")] := by
  obtain ⟨e, mk, sv, eng⟩ := env
  dsimp only at hmk hsv heng
  subst hmk hsv heng
  simp [process_sheet_music, hne, hval]

theorem claim1_w :
    allowed_file "song.png" = true ∧
    (process_sheet_music ⟨some ⟨"song.png", []⟩⟩ ⟨0, none, none, .run 0 "" ""⟩).1 =
      .response 200 [
        ("xml", "/results/" ++ uuid4Str 0 ++ "/" ++ (splitext "song.png").1 ++ ".mxl"),
        ("midi", "/results/" ++ uuid4Str 0 ++ "/" ++ (splitext "song.png").1 ++ ".mid"),
        ("musescore", "/results/" ++ uuid4Str 0 ++ "/" ++
          (splitext "song.png").1 ++ ".mscz")] :=
  ⟨by decide, claim1 ⟨0, none, none, .run 0 "" ""⟩ ⟨"song.png", []⟩ "" ""
    (by decide) (by decide) rfl rfl rfl⟩

/-- C3: for every request whose engine subprocess exits nonzero, the
handler responds 500 with an error field and a details field equal to the
captured standard error (for any captured standard output), and the trace
contains exactly one engine invocation: no retry. -/
theorem claim3 (env : Env) (u : Upload) (code : Nat) (out err : String)
    (hval : allowed_file u.filename = true) (hne : u.filename ≠ "")
    (hmk : env.mkdirExc = none) (hsv : env.saveExc = none)
    (heng : env.engine = .run (code + 1) out err) :
    (process_sheet_music ⟨some u⟩ env).1 =
      .response 500 [("error", "Failed to process the sheet music with Audiveris."),
        ("details", err)] ∧
    ((process_sheet_music ⟨some u⟩ env).2).countP isRunEngineEvent = 1 := by
  refine ⟨?_, ?_⟩
  · obtain ⟨e, mk, sv, eng⟩ := env
    dsimp only at hmk hsv heng
    subst hmk hsv heng
    simp [process_sheet_music, hne, hval]
  · rw [trace_shape env u hval hne hmk hsv]
    rfl

theorem claim3_w :
    (process_sheet_music ⟨some ⟨"score.pdf", []⟩⟩ ⟨0, none, none, .run 2 "OUT" "ERR"⟩).1 =
      .response 500 [("error", "Failed to process the sheet music with Audiveris."),
        ("details", "ERR")] ∧
    ((process_sheet_music ⟨some ⟨"score.pdf", []⟩⟩
      ⟨0, none, none, .run 2 "OUT" "ERR"⟩).2).countP isRunEngineEvent = 1 :=
  claim3 ⟨0, none, none, .run 2 "OUT" "ERR"⟩ ⟨"score.pdf", []⟩ 1 "OUT" "ERR"
    (by decide) (by decide) rfl rfl rfl

/-- C4: for every request with a missing file part, an empty filename, or
a filename failing validation, the handler responds 400 with a body that
is exactly one error field, and its side-effect trace is empty: no job
identifier generated, no directory created, no file saved, no subprocess
invoked. -/
theorem claim4 (req : Request) (env : Env)
    (h : req.fileField = none ∨ ∃ u, req.fileField = some u ∧
      (u.filename = "" ∨ allowed_file u.filename = false)) :
    is400ErrorOnly (process_sheet_music req env).1 = true ∧
    (process_sheet_music req env).2 = [] := by
  obtain ⟨f⟩ := req
  rcases h with h | ⟨u, hu, hcase⟩
  · dsimp only at h
    subst h
    simp [process_sheet_music, is400ErrorOnly]
  · dsimp only at hu
    subst hu
    rcases hcase with hemp | hbad
    · simp [process_sheet_music, hemp, is400ErrorOnly]
    · by_cases hne : u.filename = ""
      · simp [process_sheet_music, hne, is400ErrorOnly]
      · simp [process_sheet_music, hne, hbad, is400ErrorOnly]

theorem claim4_w :
    is400ErrorOnly (process_sheet_music ⟨some ⟨"notes.txt", []⟩⟩
      ⟨0, none, none, .run 0 "" ""⟩).1 = true ∧
    (process_sheet_music ⟨some ⟨"notes.txt", []⟩⟩ ⟨0, none, none, .run 0 "" ""⟩).2 = [] :=
  claim4 ⟨some ⟨"notes.txt", []⟩⟩ ⟨0, none, none, .run 0 "" ""⟩
    (Or.inr ⟨⟨"notes.txt", []⟩, rfl, Or.inr (by decide)⟩)

/-- C6 counterexample: with a validated upload whose save step raises,
the handler does not catch the exception — the outcome is an uncaught
exception, and in particular is not a 500 response with any JSON body. -/
theorem claim6_cex :
    (process_sheet_music ⟨some ⟨"song.png", []⟩⟩
      ⟨0, none, some "disk full", .run 0 "" ""⟩).1 = Outcome.uncaught "disk full" ∧
    (∀ b, (process_sheet_music ⟨some ⟨"song.png", []⟩⟩
      ⟨0, none, some "disk full", .run 0 "" ""⟩).1 ≠ Outcome.response 500 b) := by
  refine ⟨rfl, fun b h => ?_⟩
  have h2 : Outcome.uncaught "disk full" = Outcome.response 500 b := h
  exact Outcome.noConfusion h2

/-- C6 amended: an unexpected exception raised during the engine
invocation step is caught and surfaced as a 500 response whose error
field exposes only a message string; exceptions raised earlier, during
output-directory creation or upload saving, are outside the try block
and propagate uncaught. -/
theorem claim6 (env : Env) (u : Upload) (m : String)
    (hval : allowed_file u.filename = true) (hne : u.filename ≠ "")
    (hmk : env.mkdirExc = none) (hsv : env.saveExc = none)
    (heng : env.engine = .exc m) :
    (process_sheet_music ⟨some u⟩ env).1 =
      .response 500 [("error", "An unexpected error occurred: " ++ m)] := by
  obtain ⟨e, mk, sv, eng⟩ := env
  dsimp only at hmk hsv heng
  subst hmk hsv heng
  simp [process_sheet_music, hne, hval]

theorem claim6_w :
    (process_sheet_music ⟨some ⟨"song.png", []⟩⟩ ⟨0, none, none, .exc "boom"⟩).1 =
      .response 500 [("error", "An unexpected error occurred: " ++ "boom")] :=
  claim6 ⟨0, none, none, .exc "boom"⟩ ⟨"song.png", []⟩ "boom"
    (by decide) (by decide) rfl rfl rfl

/-! ### Path-confinement analysis for the result-serving route -/

lemma splitSlash_ne_nil (l : List Char) : splitSlash l ≠ [] := by
  cases l with
  | nil => simp [splitSlash]
  | cons c cs =>
    rw [splitSlash]
    by_cases hc : c = '/'
    · rw [if_pos hc]
      simp
    · rw [if_neg hc]
      cases hss : splitSlash cs with
      | nil => simp
      | cons h t => simp

lemma splitSlash_cons_of_ne (c : Char) (cs : List Char) (hc : c ≠ '/')
    (h : List Char) (t : List (List Char)) (hss : splitSlash cs = h :: t) :
    splitSlash (c :: cs) = (c :: h) :: t := by
  rw [splitSlash, if_neg hc, hss]

lemma splitSlash_slashFree (l : List Char) : ∀ x ∈ splitSlash l, slashFree x := by
  induction l with
  | nil =>
    intro x hx
    rw [show splitSlash [] = [[]] from rfl, List.mem_singleton] at hx
    subst hx
    intro d hd
    simp at hd
  | cons c cs ih =>
    intro x hx
    by_cases hc : c = '/'
    · rw [splitSlash, if_pos hc] at hx
      rcases List.mem_cons.mp hx with h | h
      · subst h
        intro d hd
        simp at hd
      · exact ih x h
    · cases hss : splitSlash cs with
      | nil => exact absurd hss (splitSlash_ne_nil cs)
      | cons h t =>
        rw [splitSlash_cons_of_ne c cs hc h t hss] at hx
        rcases List.mem_cons.mp hx with h1 | h1
        · subst h1
          intro d hd
          rcases List.mem_cons.mp hd with h2 | h2
          · subst h2
            exact hc
          · exact ih h (by rw [hss]; exact List.mem_cons_self h t) d h2
        · exact ih x (by rw [hss]; exact List.mem_cons_of_mem h h1)

lemma splitSlash_no_slash (x : List Char) (hx : slashFree x) :
    splitSlash x = [x] := by
  induction x with
  | nil => rfl
  | cons c cs ih =>
    have hc : c ≠ '/' := hx c (List.mem_cons_self _ _)
    have hcs : slashFree cs := fun d hd => hx d (List.mem_cons_of_mem _ hd)
    rw [splitSlash_cons_of_ne c cs hc cs [] (ih hcs)]

lemma splitSlash_append (x r : List Char) (hx : slashFree x) :
    splitSlash (x ++ '/' :: r) = x :: splitSlash r := by
  induction x with
  | nil => rw [List.nil_append, splitSlash, if_pos rfl]
  | cons c cs ih =>
    have hc : c ≠ '/' := hx c (List.mem_cons_self _ _)
    have hcs : slashFree cs := fun d hd => hx d (List.mem_cons_of_mem _ hd)
    rw [List.cons_append]
    cases hss : splitSlash (cs ++ '/' :: r) with
    | nil => exact absurd hss (splitSlash_ne_nil _)
    | cons h t =>
      rw [splitSlash_cons_of_ne c _ hc h t hss]
      rw [ih hcs] at hss
      injection hss with h1 h2
      rw [← h1, ← h2]

lemma joinSlash_cons_ne (x : List Char) (ns : List (List Char)) (h : ns ≠ []) :
    joinSlash (x :: ns) = x ++ '/' :: joinSlash ns := by
  cases ns with
  | nil => exact absurd rfl h
  | cons y ys => rfl

lemma joinSlash_head_ne_nil (x : List Char) (xs : List (List Char)) (hx : x ≠ []) :
    joinSlash (x :: xs) ≠ [] := by
  cases xs with
  | nil => simpa [joinSlash] using hx
  | cons y ys =>
    rw [joinSlash_cons_ne x (y :: ys) (by simp)]
    intro hcontra
    simp at hcontra

lemma splitSlash_joinSlash (L : List (List Char)) (hL : L ≠ [])
    (hfree : ∀ x ∈ L, slashFree x) : splitSlash (joinSlash L) = L := by
  induction L with
  | nil => exact absurd rfl hL
  | cons x xs ih =>
    cases xs with
    | nil => exact splitSlash_no_slash x (hfree x (List.mem_cons_self _ _))
    | cons y ys =>
      rw [joinSlash_cons_ne x (y :: ys) (by simp)]
      rw [splitSlash_append x _ (hfree x (List.mem_cons_self _ _))]
      rw [ih (by simp) (fun z hz => hfree z (List.mem_cons_of_mem _ hz))]

/-- Structure of the stack produced by the normpath component loop: the
result is a run of parent markers (none when the path is absolute)
followed by real, separator-free components. -/
lemma normComps_shape (ab : Bool) :
    ∀ (comps stack ns : List (List Char)) (m : Nat),
    stack = ns ++ List.replicate m DOTDOT →
    (∀ x ∈ comps, slashFree x) →
    (∀ x ∈ ns, isNormal x ∧ slashFree x) →
    (ab = true → m = 0) →
    ∃ m' ns', normComps ab comps stack = List.replicate m' DOTDOT ++ ns' ∧
      (∀ x ∈ ns', isNormal x ∧ slashFree x) ∧ (ab = true → m' = 0) := by
  intro comps
  induction comps with
  | nil =>
    intro stack ns m hstack hfree hns habs
    refine ⟨m, ns.reverse, ?_, fun x hx => hns x (List.mem_reverse.mp hx), habs⟩
    rw [normComps, hstack, List.reverse_append, List.reverse_replicate]
  | cons comp rest ih =>
    intro stack ns m hstack hfree hns habs
    have hfree' : ∀ x ∈ rest, slashFree x :=
      fun x hx => hfree x (List.mem_cons_of_mem _ hx)
    have hcomp : slashFree comp := hfree comp (List.mem_cons_self _ _)
    by_cases hskip : comp = [] ∨ comp = ['.']
    · cases stack with
      | nil =>
        rw [normComps, if_pos hskip]
        exact ih [] ns m hstack hfree' hns habs
      | cons top s =>
        rw [normComps, if_pos hskip]
        exact ih (top :: s) ns m hstack hfree' hns habs
    · by_cases hdd : comp = DOTDOT
      · cases stack with
        | nil =>
          rw [normComps, if_neg hskip, if_pos hdd]
          by_cases hab : ab = true
          · rw [if_pos hab]
            exact ih [] [] 0 rfl hfree' (by simp) (fun _ => rfl)
          · rw [if_neg hab]
            exact ih [DOTDOT] [] 1 rfl hfree' (by simp) (fun hh => absurd hh hab)
        | cons top s =>
          rw [normComps, if_neg hskip, if_pos hdd]
          cases hnsc : ns with
          | nil =>
            rw [hnsc, List.nil_append] at hstack
            cases m with
            | zero => simp at hstack
            | succ m0 =>
              rw [List.replicate_succ] at hstack
              injection hstack with htop hs
              rw [if_pos htop]
              refine ih (DOTDOT :: top :: s) [] (m0 + 2) ?_ hfree' (by simp)
                (fun hh => absurd (habs hh) (by simp))
              rw [htop, hs]
              rfl
          | cons n0 ns0 =>
            rw [hnsc, List.cons_append] at hstack
            injection hstack with htop hs
            have hn0 := hns n0 (by rw [hnsc]; exact List.mem_cons_self _ _)
            rw [if_neg (by rw [htop]; exact hn0.1.2.2)]
            exact ih s ns0 m hs hfree'
              (fun x hx => hns x (by rw [hnsc]; exact List.mem_cons_of_mem _ hx)) habs
      · have hnormal : isNormal comp :=
          ⟨fun hh => hskip (Or.inl hh), fun hh => hskip (Or.inr hh), hdd⟩
        have hpush : ∀ x ∈ comp :: ns, isNormal x ∧ slashFree x := by
          intro x hx
          rcases List.mem_cons.mp hx with hh | hh
          · subst hh
            exact ⟨hnormal, hcomp⟩
          · exact hns x hh
        cases stack with
        | nil =>
          rw [normComps, if_neg hskip, if_neg hdd]
          exact ih [comp] (comp :: ns) m
            (by rw [List.cons_append, ← hstack]) hfree' hpush habs
        | cons top s =>
          rw [normComps, if_neg hskip, if_neg hdd]
          exact ih (comp :: top :: s) (comp :: ns) m
            (by rw [List.cons_append, ← hstack]) hfree' hpush habs

/-- When every component is real, the loop just appends them after the
reversed stack. -/
lemma normComps_all_normal (ab : Bool) :
    ∀ (comps stack : List (List Char)), (∀ x ∈ comps, isNormal x) →
    normComps ab comps stack = stack.reverse ++ comps := by
  intro comps
  induction comps with
  | nil =>
    intro stack h
    rw [normComps]
    simp
  | cons comp rest ih =>
    intro stack h
    have hcomp := h comp (List.mem_cons_self _ _)
    have hrest : ∀ x ∈ rest, isNormal x := fun x hx => h x (List.mem_cons_of_mem _ hx)
    have hskip : ¬(comp = [] ∨ comp = ['.']) := by
      rintro (h1 | h1)
      · exact hcomp.1 h1
      · exact hcomp.2.1 h1
    cases stack with
    | nil =>
      rw [normComps, if_neg hskip, if_neg hcomp.2.2, ih [comp] hrest]
      simp
    | cons top s =>
      rw [normComps, if_neg hskip, if_neg hcomp.2.2, ih (comp :: top :: s) hrest]
      simp

lemma normpath_of_ne (p : String) (hp : p ≠ "") :
    normpath p = normRender (normSlashes p.data)
      (normComps (decide (0 < normSlashes p.data)) (splitSlash p.data) []) := by
  unfold normpath
  rw [if_neg hp]

lemma normSlashes_of_head (c : Char) (t : List Char) (hc : c ≠ '/') :
    normSlashes (c :: t) = 0 := by
  have hA : ¬((c :: t).take 2 = ['/', '/'] ∧ (c :: t).take 3 ≠ ['/', '/', '/']) := by
    rintro ⟨h1, -⟩
    rw [List.take_succ_cons] at h1
    injection h1 with h1a h1b
    exact hc h1a
  have hB : ¬((c :: t).take 1 = ['/']) := by
    intro h1
    rw [List.take_succ_cons] at h1
    injection h1 with h1a h1b
    exact hc h1a
  unfold normSlashes
  rw [if_neg hA, if_neg hB]

lemma normRender_zero (comps : List (List Char)) (h : joinSlash comps ≠ []) :
    normRender 0 comps = ⟨joinSlash comps⟩ := by
  unfold normRender
  rw [List.replicate_zero, List.nil_append, if_neg h]

lemma normRender_pos (sl : Nat) (hsl : 0 < sl) (comps : List (List Char)) :
    ∃ t, normRender sl comps = ⟨'/' :: t⟩ := by
  cases sl with
  | zero => omega
  | succ k =>
    unfold normRender
    rw [List.replicate_succ]
    rw [if_neg (by simp)]
    exact ⟨List.replicate k '/' ++ joinSlash comps, by rw [List.cons_append]⟩

lemma sw_slash (t : List Char) : strStartsWith ⟨'/' :: t⟩ "/" = true := by
  show decide ((('/' :: t).take ("/".data.length)) = "/".data) = true
  rw [show "/".data = ['/'] from rfl]
  simp

lemma sw_dotdotslash (t : List Char) :
    strStartsWith ⟨'.' :: '.' :: '/' :: t⟩ "../" = true := by
  show decide ((('.' :: '.' :: '/' :: t).take ("../".data.length)) = "../".data) = true
  rw [show "../".data = ['.', '.', '/'] from rfl]
  simp

/-- Every normalized nonempty relative-or-absolute path is the dot, an
absolute path, the parent marker, a parent-marker-led path, or a clean
join of real separator-free components. -/
lemma normpath_cases (p : String) (hp : p ≠ "") :
    normpath p = "." ∨ strStartsWith (normpath p) "/" = true ∨
    normpath p = ".." ∨ strStartsWith (normpath p) "../" = true ∨
    ∃ ns : List (List Char), ns ≠ [] ∧ (∀ x ∈ ns, isNormal x ∧ slashFree x) ∧
      normpath p = ⟨joinSlash ns⟩ := by
  rw [normpath_of_ne p hp]
  by_cases hsl : 0 < normSlashes p.data
  · right
    left
    obtain ⟨t, ht⟩ := normRender_pos _ hsl _
    rw [ht]
    exact sw_slash t
  · have hsl0 : normSlashes p.data = 0 := by omega
    rw [hsl0, show decide ((0 : Nat) < 0) = false from rfl]
    obtain ⟨m', ns', hcomps, hgood, -⟩ :=
      normComps_shape false (splitSlash p.data) [] [] 0 rfl
        (splitSlash_slashFree p.data) (by simp) (by simp)
    rw [hcomps]
    cases m' with
    | zero =>
      simp only [List.replicate_zero, List.nil_append]
      cases hns' : ns' with
      | nil =>
        left
        rfl
      | cons x xs =>
        right
        right
        right
        right
        have hgood' : ∀ z ∈ x :: xs, isNormal z ∧ slashFree z := by
          rw [← hns']
          exact hgood
        have hxne : x ≠ [] := (hgood' x (List.mem_cons_self _ _)).1.1
        exact ⟨x :: xs, by simp, hgood',
          normRender_zero _ (joinSlash_head_ne_nil x xs hxne)⟩
    | succ m0 =>
      rw [List.replicate_succ, List.cons_append]
      cases h0 : List.replicate m0 DOTDOT ++ ns' with
      | nil =>
        right
        right
        left
        rfl
      | cons y ys =>
        right
        right
        right
        left
        have hj : joinSlash (DOTDOT :: y :: ys) = '.' :: '.' :: '/' :: joinSlash (y :: ys) := rfl
        rw [normRender_zero _ (by rw [hj]; simp), hj]
        exact sw_dotdotslash _

lemma string_ne_empty_of_data (s : String) (h : s.data ≠ []) : s ≠ "" := by
  intro hh
  apply h
  rw [hh]

/-! ### Injectivity of the uuid string rendering -/

lemma fromHexChar_toHexChar (n : Nat) (h : n < 16) :
    fromHexChar (toHexChar n) = n := by
  interval_cases n <;> decide

lemma ofHexAux_append (a : Nat) (l1 l2 : List Char) :
    ofHexAux a (l1 ++ l2) = ofHexAux (ofHexAux a l1) l2 := by
  induction l1 generalizing a with
  | nil => rfl
  | cons c cs ih => simp [ofHexAux, ih]

lemma ofHexAux_hexDigits (k : Nat) : ∀ a n : Nat, n < 16 ^ k →
    ofHexAux a (hexDigits k n) = a * 16 ^ k + n := by
  induction k with
  | zero =>
    intro a n h
    interval_cases n
    simp [hexDigits, ofHexAux]
  | succ k ih =>
    intro a n h
    have hdiv : n / 16 < 16 ^ k := by
      rw [Nat.div_lt_iff_lt_mul (by norm_num)]
      calc n < 16 ^ (k + 1) := h
        _ = 16 ^ k * 16 := by ring
    rw [hexDigits, ofHexAux_append, ih a (n / 16) hdiv]
    show 16 * (a * 16 ^ k + n / 16) + fromHexChar (toHexChar (n % 16)) = _
    rw [fromHexChar_toHexChar (n % 16) (Nat.mod_lt _ (by norm_num))]
    have key : 16 * (n / 16) + n % 16 = n := by omega
    calc 16 * (a * 16 ^ k + n / 16) + n % 16
        = 16 * (a * 16 ^ k) + (16 * (n / 16) + n % 16) := by ring
      _ = 16 * (a * 16 ^ k) + n := by rw [key]
      _ = a * 16 ^ (k + 1) + n := by ring

lemma hexDigits_inj (k n1 n2 : Nat) (h1 : n1 < 16 ^ k) (h2 : n2 < 16 ^ k)
    (h : hexDigits k n1 = hexDigits k n2) : n1 = n2 := by
  have e1 := ofHexAux_hexDigits k 0 n1 h1
  have e2 := ofHexAux_hexDigits k 0 n2 h2
  rw [h] at e1
  simpa using e1.symm.trans e2

lemma toHexChar_ne_dash (n : Nat) (h : n < 16) : toHexChar n ≠ '-' := by
  interval_cases n <;> decide

lemma hexDigits_ne_dash (k : Nat) : ∀ n : Nat, ∀ c ∈ hexDigits k n, c ≠ '-' := by
  induction k with
  | zero => simp [hexDigits]
  | succ k ih =>
    intro n c hc
    rw [hexDigits] at hc
    rcases List.mem_append.mp hc with hc | hc
    · exact ih _ c hc
    · rw [List.mem_singleton] at hc
      rw [hc]
      exact toHexChar_ne_dash _ (Nat.mod_lt _ (by norm_num))

lemma chunks_eq (l : List Char) :
    l.take 8 ++ ((l.drop 8).take 4 ++ ((l.drop 12).take 4 ++
      ((l.drop 16).take 4 ++ l.drop 20))) = l := by
  have h20 : (l.drop 16).drop 4 = l.drop 20 := by rw [List.drop_drop]
  have h16 : (l.drop 12).drop 4 = l.drop 16 := by rw [List.drop_drop]
  have h12 : (l.drop 8).drop 4 = l.drop 12 := by rw [List.drop_drop]
  rw [← h20, List.take_append_drop, ← h16, List.take_append_drop, ← h12,
    List.take_append_drop, List.take_append_drop]

lemma filter_nodash_append (l r : List Char) (hl : ∀ c ∈ l, c ≠ '-') :
    (l ++ '-' :: r).filter (fun c => !(c == '-')) =
      l ++ r.filter (fun c => !(c == '-')) := by
  rw [List.filter_append]
  congr 1
  rw [List.filter_eq_self]
  intro a ha
  simpa using hl a ha

lemma filter_uuid_data (n : Nat) :
    ((uuidStrOf n).data).filter (fun c => !(c == '-')) = hexDigits 32 n := by
  have hall : ∀ c ∈ hexDigits 32 n, c ≠ '-' := hexDigits_ne_dash 32 n
  have h8 : ∀ c ∈ (hexDigits 32 n).take 8, c ≠ '-' :=
    fun c hc => hall c (List.take_subset _ _ hc)
  have t1 : ∀ m k : Nat, ∀ c ∈ ((hexDigits 32 n).drop m).take k, c ≠ '-' :=
    fun m k c hc => hall c (List.drop_subset _ _ (List.take_subset _ _ hc))
  have t2 : ∀ c ∈ (hexDigits 32 n).drop 20, c ≠ '-' :=
    fun c hc => hall c (List.drop_subset _ _ hc)
  show ((hexDigits 32 n).take 8 ++ '-' :: (((hexDigits 32 n).drop 8).take 4 ++
    '-' :: (((hexDigits 32 n).drop 12).take 4 ++
    '-' :: (((hexDigits 32 n).drop 16).take 4 ++
    '-' :: (hexDigits 32 n).drop 20)))).filter (fun c => !(c == '-')) =
    hexDigits 32 n
  rw [filter_nodash_append _ _ h8, filter_nodash_append _ _ (t1 8 4),
    filter_nodash_append _ _ (t1 12 4), filter_nodash_append _ _ (t1 16 4),
    List.filter_eq_self.mpr (fun a ha => by simpa using t2 a ha)]
  exact chunks_eq _

lemma uuid4Int_lt (e : Nat) : uuid4Int e < 2 ^ 128 := by
  have h0 : e % 2 ^ 128 < 2 ^ 128 := Nat.mod_lt _ (by norm_num)
  have h1 : (e % 2 ^ 128) &&& (MASK128 ^^^ (0xf000 <<< 64)) < 2 ^ 128 :=
    lt_of_le_of_lt Nat.and_le_left h0
  have h2 : ((e % 2 ^ 128) &&& (MASK128 ^^^ (0xf000 <<< 64))) ||| (0x4000 <<< 64)
      < 2 ^ 128 := Nat.or_lt_two_pow h1 (by decide)
  have h3 : (((e % 2 ^ 128) &&& (MASK128 ^^^ (0xf000 <<< 64))) ||| (0x4000 <<< 64))
      &&& (MASK128 ^^^ (0xc000 <<< 48)) < 2 ^ 128 :=
    lt_of_le_of_lt Nat.and_le_left h2
  exact Nat.or_lt_two_pow h3 (by decide)

lemma uuidStrOf_inj (n1 n2 : Nat) (h1 : n1 < 2 ^ 128) (h2 : n2 < 2 ^ 128)
    (h : uuidStrOf n1 = uuidStrOf n2) : n1 = n2 := by
  have hpow : (16 : Nat) ^ 32 = 2 ^ 128 := by norm_num
  have hd : (uuidStrOf n1).data = (uuidStrOf n2).data := congrArg String.data h
  have hf := congrArg (List.filter (fun c => !(c == '-'))) hd
  rw [filter_uuid_data, filter_uuid_data] at hf
  exact hexDigits_inj 32 n1 n2 (hpow ▸ h1) (hpow ▸ h2) hf

/-- C8: the job identifier of a request is the uuid4 rendering of the
random draw made for that request and does not depend on the uploaded
file; for any upload — including an identical repeated upload — two
calls whose masked 128-bit draws differ receive distinct job
identifiers. -/
theorem claim8 (u : Upload) (env1 env2 : Env) (jid1 jid2 : String)
    (rest1 rest2 : List Event)
    (hneq : uuid4Int env1.uuidEntropy ≠ uuid4Int env2.uuidEntropy)
    (hval : allowed_file u.filename = true) (hne : u.filename ≠ "")
    (h1 : (process_sheet_music ⟨some u⟩ env1).2 = Event.genJobId jid1 :: rest1)
    (h2 : (process_sheet_music ⟨some u⟩ env2).2 = Event.genJobId jid2 :: rest2) :
    jid1 ≠ jid2 := by
  obtain ⟨r1, hr1⟩ := trace_head env1 u hval hne
  obtain ⟨r2, hr2⟩ := trace_head env2 u hval hne
  rw [hr1] at h1
  rw [hr2] at h2
  obtain ⟨e1, -⟩ : uuid4Str env1.uuidEntropy = jid1 ∧ r1 = rest1 := by
    simpa using h1
  obtain ⟨e2, -⟩ : uuid4Str env2.uuidEntropy = jid2 ∧ r2 = rest2 := by
    simpa using h2
  intro hjj
  exact hneq (uuidStrOf_inj _ _ (uuid4Int_lt _) (uuid4Int_lt _)
    (by rw [show uuidStrOf (uuid4Int env1.uuidEntropy) = uuid4Str env1.uuidEntropy from rfl,
      show uuidStrOf (uuid4Int env2.uuidEntropy) = uuid4Str env2.uuidEntropy from rfl,
      e1, e2, hjj]))

theorem claim8_w :
    uuid4Int 0 ≠ uuid4Int 1 ∧ uuid4Str 0 ≠ uuid4Str 1 :=
  ⟨by decide,
    claim8 ⟨"score.pdf", []⟩ ⟨0, none, none, .run 0 "" ""⟩
      ⟨1, none, none, .run 0 "" ""⟩ (uuid4Str 0) (uuid4Str 1)
      [Event.mkdir (posixJoin OUTPUT_FOLDER (uuid4Str 0)),
       Event.save (posixJoin UPLOAD_FOLDER "score.pdf"),
       Event.runEngine [AUDIVERIS_PATH, "-batch", "-run",
         posixJoin UPLOAD_FOLDER "score.pdf", "-export", "-output",
         posixJoin OUTPUT_FOLDER (uuid4Str 0)]]
      [Event.mkdir (posixJoin OUTPUT_FOLDER (uuid4Str 1)),
       Event.save (posixJoin UPLOAD_FOLDER "score.pdf"),
       Event.runEngine [AUDIVERIS_PATH, "-batch", "-run",
         posixJoin UPLOAD_FOLDER "score.pdf", "-export", "-output",
         posixJoin OUTPUT_FOLDER (uuid4Str 1)]]
      (by decide) (by decide) (by decide) rfl rfl⟩

/-- C5: every file path the result-serving route resolves for a request
stays under the results root — its normalized form is the root or a
proper extension of it — and in particular the traversal path of two
parent markers followed by a name is refused outright. -/
theorem claim5 :
    (∀ p s : String, send_result p = some s → underRootB OUTPUT_FOLDER s = true) ∧
    send_result "../../secret" = none := by
  refine ⟨?_, by decide⟩
  intro p s h
  by_cases hp : p = ""
  · subst hp
    have h2 : some ("output/" : String) = some s := h
    have hs := Option.some.inj h2
    rw [← hs]
    decide
  · have hF : safeJoinF p = normpath p := by
      unfold safeJoinF
      rw [if_neg hp]
    unfold send_result safeJoin at h
    rw [hF] at h
    by_cases hA : strStartsWith (normpath p) "/" = true ∨ normpath p = ".." ∨
        strStartsWith (normpath p) "../" = true
    · rw [if_pos hA] at h
      exact absurd h (by simp)
    · rw [if_neg hA] at h
      rw [show (if OUTPUT_FOLDER = "" then "." else OUTPUT_FOLDER) = OUTPUT_FOLDER
        from rfl] at h
      have hs := Option.some.inj h
      push_neg at hA
      obtain ⟨hA1, hA2, hA3⟩ := hA
      rcases normpath_cases p hp with hdot | habs | hddc | hdds | ⟨ns, hne, hgood, hnp⟩
      · rw [hdot] at hs
        rw [← hs]
        decide
      · exact absurd habs hA1
      · exact absurd hddc hA2
      · exact absurd hdds hA3
      · rw [hnp] at hs
        have hpj : posixJoin OUTPUT_FOLDER (⟨joinSlash ns⟩ : String) =
            OUTPUT_FOLDER ++ "/" ++ ⟨joinSlash ns⟩ := by
          unfold posixJoin
          rw [if_neg (by rw [← hnp]; exact hA1), if_neg (by decide)]
        have hsdata : s.data = joinSlash ("output".data :: ns) := by
          rw [← hs, hpj, string_data_append, string_data_append]
          rw [joinSlash_cons_ne _ _ hne]
          rw [show (OUTPUT_FOLDER : String).data = "output".data from rfl,
            show ("/" : String).data = ['/'] from rfl]
          rw [List.append_assoc]
          rfl
        have hsne : s ≠ "" := string_ne_empty_of_data s
          (by rw [hsdata]; exact joinSlash_head_ne_nil _ _ (by decide))
        have hfree_all : ∀ x ∈ ("output".data :: ns), slashFree x := by
          intro x hx
          rcases List.mem_cons.mp hx with hh | hh
          · subst hh
            unfold slashFree
            decide
          · exact (hgood x hh).2
        have hnormal_all : ∀ x ∈ ("output".data :: ns), isNormal x := by
          intro x hx
          rcases List.mem_cons.mp hx with hh | hh
          · subst hh
            exact ⟨by decide, by decide, by decide⟩
          · exact (hgood x hh).1
        have hsplit2 : splitSlash s.data = "output".data :: ns := by
          rw [hsdata]
          exact splitSlash_joinSlash _ (by simp) hfree_all
        have hheadform : joinSlash ("output".data :: ns) =
            'o' :: ("utput".data ++ '/' :: joinSlash ns) := by
          rw [joinSlash_cons_ne _ _ hne]
          rfl
        have hsl0 : normSlashes s.data = 0 := by
          rw [hsdata, hheadform]
          exact normSlashes_of_head 'o' _ (by decide)
        have hnorm : normpath s = s := by
          rw [normpath_of_ne s hsne, hsl0,
            show decide ((0 : Nat) < 0) = false from rfl, hsplit2]
          rw [normComps_all_normal false ("output".data :: ns) [] hnormal_all]
          simp only [List.reverse_nil, List.nil_append]
          rw [normRender_zero _ (joinSlash_head_ne_nil _ _ (by decide))]
          rw [← hsdata]
        unfold underRootB
        rw [hnorm]
        have hsw2 : strStartsWith s (OUTPUT_FOLDER ++ "/") = true := by
          unfold strStartsWith
          rw [show ((OUTPUT_FOLDER ++ "/") : String).data = "output/".data from rfl]
          rw [hsdata, joinSlash_cons_ne _ _ hne]
          rw [show "output".data ++ '/' :: joinSlash ns =
              "output/".data ++ joinSlash ns from by
            rw [← List.singleton_append, ← List.append_assoc]
            rfl]
          rw [List.take_left]
          simp
        rw [hsw2, Bool.or_true]

theorem claim5_w :
    send_result "J/song.mxl" = some "output/J/song.mxl" ∧
    underRootB OUTPUT_FOLDER "output/J/song.mxl" = true :=
  ⟨by decide, claim5.1 "J/song.mxl" "output/J/song.mxl" (by decide)⟩

/-- C7 counterexample: on a concrete valid upload the full trace shows
the output directory being created at position one, before the upload is
saved at position two — not the claimed save-then-create order. -/
theorem claim7_cex :
    (process_sheet_music ⟨some ⟨"song.png", []⟩⟩ ⟨0, none, none, .run 0 "" ""⟩).2 =
      [Event.genJobId (uuid4Str 0),
       Event.mkdir (posixJoin OUTPUT_FOLDER (uuid4Str 0)),
       Event.save (posixJoin UPLOAD_FOLDER "song.png"),
       Event.runEngine [AUDIVERIS_PATH, "-batch", "-run",
         posixJoin UPLOAD_FOLDER "song.png", "-export", "-output",
         posixJoin OUTPUT_FOLDER (uuid4Str 0)]] ∧
    ((process_sheet_music ⟨some ⟨"song.png", []⟩⟩ ⟨0, none, none, .run 0 "" ""⟩).2).get? 1 =
      some (Event.mkdir (posixJoin OUTPUT_FOLDER (uuid4Str 0))) ∧
    ((process_sheet_music ⟨some ⟨"song.png", []⟩⟩ ⟨0, none, none, .run 0 "" ""⟩).2).get? 2 =
      some (Event.save (posixJoin UPLOAD_FOLDER "song.png")) :=
  ⟨rfl, rfl, rfl⟩

/-- C7 amended: for every valid upload the orchestrator generates the job
identifier, then creates the per-job output directory, then persists the
upload to the intake directory under the client-supplied filename, and
only then invokes the engine subprocess — directory creation precedes
the save, not the other way around. -/
theorem claim7 (env : Env) (u : Upload)
    (hval : allowed_file u.filename = true) (hne : u.filename ≠ "")
    (hmk : env.mkdirExc = none) (hsv : env.saveExc = none) :
    (process_sheet_music ⟨some u⟩ env).2 =
      [Event.genJobId (uuid4Str env.uuidEntropy),
       Event.mkdir (posixJoin OUTPUT_FOLDER (uuid4Str env.uuidEntropy)),
       Event.save (posixJoin UPLOAD_FOLDER u.filename),
       Event.runEngine [AUDIVERIS_PATH, "-batch", "-run",
         posixJoin UPLOAD_FOLDER u.filename, "-export", "-output",
         posixJoin OUTPUT_FOLDER (uuid4Str env.uuidEntropy)]] :=
  trace_shape env u hval hne hmk hsv

theorem claim7_w :
    (process_sheet_music ⟨some ⟨"sheet.jpg", []⟩⟩ ⟨7, none, none, .run 0 "" ""⟩).2 =
      [Event.genJobId (uuid4Str 7),
       Event.mkdir (posixJoin OUTPUT_FOLDER (uuid4Str 7)),
       Event.save (posixJoin UPLOAD_FOLDER "sheet.jpg"),
       Event.runEngine [AUDIVERIS_PATH, "-batch", "-run",
         posixJoin UPLOAD_FOLDER "sheet.jpg", "-export", "-output",
         posixJoin OUTPUT_FOLDER (uuid4Str 7)]] :=
  claim7 ⟨7, none, none, .run 0 "" ""⟩ ⟨"sheet.jpg", []⟩ (by decide) (by decide) rfl rfl

end OmrScan
